import Mathlib

/-!
Verification of the `nano` repository against its specification.

The development shallowly embeds the three crates:

* `nano-oneshot` (src/nano-oneshot/src/lib.rs): the one-shot channel.  The
  shared state behind the two `Arc`s (the `Mutex<Option<T>>` and the
  `Condvar`) is modelled as an explicit record `Oneshot.ChanState` carrying
  the slot contents, the two `Arc` strong counts, the number of pending
  `notify_one` signals, and two ghost booleans recording whether each
  endpoint handle is still alive.  Blocking is modelled by running the
  receiver loop against an explicit schedule of sender-side events, one per
  wait on the condition variable.
* `nano-fs-perms` (src/nano-fs-perms/src/lib.rs): the permission constants,
  embedded as natural numbers.
* `nano-leb128` (src/nano-leb128/src/lib.rs): the ULEB128/SLEB128 codecs,
  embedded over `Nat` (u64 patterns) and `Int` (i64 values) with explicit
  `% 2 ^ 64` wherever the Rust machine arithmetic can wrap.
-/

namespace Oneshot

/-- Model of the state shared by the two halves of a channel: the contents of
the `Mutex<Option<T>>` slot, the strong counts of the two `Arc`s (`mutex` and
`condvar`), the number of pending `Condvar::notify_one` signals, and ghost
flags recording whether each endpoint handle is still alive (the handles are
what hold the `Arc` clones). -/
structure ChanState (T : Type) where
  slot : Option T
  mutexCount : Nat
  condvarCount : Nat
  signals : Nat
  senderLive : Bool
  receiverLive : Bool

/-- `channel()` (lib.rs:39-50): one shared state, two `Arc` clones of each of
the mutex and condvar (strong counts 2), empty slot. -/
def channel (T : Type) : ChanState T :=
  { slot := none, mutexCount := 2, condvarCount := 2, signals := 0,
    senderLive := true, receiverLive := true }

/-- The error returned by `Sender::send` (lib.rs:97-100). -/
inductive SendError (T : Type) where
  | Disconnected (value : T)
  deriving Repr, DecidableEq

/-- The error returned by `Receiver::recv` (lib.rs:175-178). -/
inductive RecvError where
  | Disconnected
  deriving Repr, DecidableEq

/-- The error returned by `Receiver::recv_timeout` (lib.rs:183-187). -/
inductive RecvTimeoutError where
  | TimedOut
  | Disconnected
  deriving Repr, DecidableEq

namespace Sender

/-- `Sender::is_disconnected` (lib.rs:79-83):
`Arc::strong_count(mutex) == 1 || Arc::strong_count(condvar) == 1`. -/
def is_disconnected {T : Type} (s : ChanState T) : Bool :=
  s.mutexCount == 1 || s.condvarCount == 1

/-- The slot write plus `notify_one` performed inside `Sender::send`
(lib.rs:72-73): `*mutex.lock() = Some(value); condvar.notify_one();`. -/
def write {T : Type} (s : ChanState T) (value : T) : ChanState T :=
  { s with slot := some value, signals := s.signals + 1 }

/-- Disposal of a `Sender` handle: `impl Drop for Sender` (lib.rs:86-92)
performs `notify_one`, after which the two `Arc` fields are dropped,
decrementing both strong counts. -/
def drop {T : Type} (s : ChanState T) : ChanState T :=
  { s with
      signals := s.signals + 1
      mutexCount := s.mutexCount - 1
      condvarCount := s.condvarCount - 1
      senderLive := false }

/-- `Sender::send` (lib.rs:65-76).  `send` takes `self` by value, so on both
the error path and the success path the sender handle is dropped when the
function returns (running the `Drop` impl). -/
def send {T : Type} (s : ChanState T) (value : T) :
    ChanState T × Except (SendError T) Unit :=
  if is_disconnected s then
    (drop s, .error (.Disconnected value))
  else
    (drop (write s value), .ok ())

end Sender

namespace Receiver

/-- `Receiver::is_disconnected` (lib.rs:165-169): same twin strong-count
check as the sender side. -/
def is_disconnected {T : Type} (s : ChanState T) : Bool :=
  s.mutexCount == 1 || s.condvarCount == 1

/-- Disposal of a `Receiver` handle without taking the value: `Receiver` has
no `Drop` impl, so dropping it (or returning from `_recv` on an error path)
just drops the two `Arc` fields, decrementing both strong counts.  No signal
is raised on this path. -/
def drop {T : Type} (s : ChanState T) : ChanState T :=
  { s with
      mutexCount := s.mutexCount - 1
      condvarCount := s.condvarCount - 1
      receiverLive := false }

/-- The successful `Arc::try_unwrap` path of `Receiver::_recv`
(lib.rs:126-129): the mutex `Arc` is consumed and destroyed,
`into_inner` moves the slot contents out, and the condvar `Arc` is dropped
when the function returns. -/
def take {T : Type} (s : ChanState T) : ChanState T :=
  { Receiver.drop s with slot := none }

end Receiver

/-- A sender-side event that the environment (the thread owning the
`Sender`) can perform while the receiver is blocked in a wait:
the slot write plus notify inside `send`, or the drop of the handle. -/
inductive SenderAct (T : Type) where
  | write (value : T)
  | drop

/-- Apply a sender-side event to the shared state. -/
def applyAct {T : Type} : SenderAct T → ChanState T → ChanState T
  | .write v, s => Sender.write s v
  | .drop, s => Sender.drop s

/-- `Option::ok_or` (used as `mutex.into_inner().ok_or(disconnect_err)` in
`_recv`, lib.rs:128). -/
def okOr {T E : Type} (o : Option T) (e : E) : Except E T :=
  match o with
  | some v => .ok v
  | none => .error e

namespace Receiver

/-- The loop of `Receiver::_recv` (lib.rs:119-136) specialised to `recv`
(lib.rs:142-147), where the condition function waits on the condvar and
always returns `Ok(())`.  Each iteration first attempts
`Arc::try_unwrap(mutex)`, which succeeds exactly when the strong count is 1;
on success the slot contents are returned via `ok_or(disconnect_err)`.
Otherwise the receiver blocks in `Condvar::wait`.  A wait is modelled by one
entry of `sched`: the sender-side event that happens while the receiver is
blocked.  The wait completes only if a signal is pending afterwards (the
wake consumes one signal); `none` means the receiver is still blocked when
the schedule runs out. -/
def recvLoop {T : Type} : ChanState T → List (SenderAct T) →
    Option (ChanState T × Except RecvError T)
  | s, sched =>
    if s.mutexCount = 1 then
      some (Receiver.take s, okOr s.slot .Disconnected)
    else
      match sched with
      | [] => none
      | a :: rest =>
        let s' := applyAct a s
        if s'.signals ≠ 0 then
          recvLoop { s' with signals := s'.signals - 1 } rest
        else
          none

/-- `Receiver::recv` (lib.rs:142-147), run against a schedule of concurrent
sender-side events (one per wait on the condvar). -/
def recv {T : Type} (s : ChanState T) (sched : List (SenderAct T)) :
    Option (ChanState T × Except RecvError T) :=
  recvLoop s sched

/-- The outcome of one `Condvar::wait_for(&mut guard, timeout)` call: either
the receiver is woken after `d` time units (during which the sender-side
event `a` happened), or the full bound elapses unsignalled and the wait
reports `timed_out()`. -/
inductive TimedWait (T : Type) where
  | wake (d : Nat) (a : SenderAct T)
  | expire

/-- The loop of `Receiver::_recv` specialised to `recv_timeout`
(lib.rs:154-162).  The closure passed to `_recv` captures `timeout` and
passes that same full duration to every `wait_for` call; a wait that times
out makes the call return `Err(RecvTimeoutError::TimedOut)` (the receiver's
`Arc`s are dropped on this early-return path as well).  `elapsed`
accumulates the total time spent waiting: a wake after `d` units contributes
`min d timeout` (a wait can never exceed the bound passed to `wait_for`),
and an expired wait contributes the full `timeout`. -/
def recvTimeoutLoop {T : Type} (timeout : Nat) :
    ChanState T → List (TimedWait T) → Nat →
    Option (ChanState T × Except RecvTimeoutError T × Nat)
  | s, sched, elapsed =>
    if s.mutexCount = 1 then
      some (Receiver.take s, okOr s.slot .Disconnected, elapsed)
    else
      match sched with
      | [] => none
      | .expire :: _ => some (Receiver.drop s, .error .TimedOut, elapsed + timeout)
      | .wake d a :: rest =>
        let s' := applyAct a s
        if s'.signals ≠ 0 then
          recvTimeoutLoop timeout { s' with signals := s'.signals - 1 } rest
            (elapsed + min d timeout)
        else
          none

/-- `Receiver::recv_timeout` (lib.rs:154-162), run against a schedule of
wait outcomes. -/
def recv_timeout {T : Type} (timeout : Nat) (s : ChanState T)
    (sched : List (TimedWait T)) :
    Option (ChanState T × Except RecvTimeoutError T × Nat) :=
  recvTimeoutLoop timeout s sched 0

end Receiver

/-- One atomic transition of the shared state, performed by a live endpoint:
the slot write plus notify inside `send`, disposal of either handle, or the
successful `try_unwrap` of a receive.  Every public operation of the API is
a composition of these. -/
inductive Step {T : Type} : ChanState T → ChanState T → Prop where
  | write {s : ChanState T} (v : T) (h : s.senderLive = true) :
      Step s (Sender.write s v)
  | senderDrop {s : ChanState T} (h : s.senderLive = true) :
      Step s (Sender.drop s)
  | receiverDrop {s : ChanState T} (h : s.receiverLive = true) :
      Step s (Receiver.drop s)
  | receiverTake {s : ChanState T} (h : s.receiverLive = true)
      (hm : s.mutexCount = 1) : Step s (Receiver.take s)

/-- States reachable from a fresh channel by the operations of the API. -/
inductive Reachable {T : Type} : ChanState T → Prop where
  | init : Reachable (channel T)
  | step {s s' : ChanState T} : Reachable s → Step s s' → Reachable s'

/-- The number of references contributed by one endpoint handle. -/
def liveCount (b : Bool) : Nat := if b then 1 else 0

/-- Both `Arc` strong counts always equal the number of live endpoint
handles. -/
def CountInv {T : Type} (s : ChanState T) : Prop :=
  s.mutexCount = liveCount s.senderLive + liveCount s.receiverLive ∧
  s.condvarCount = liveCount s.senderLive + liveCount s.receiverLive

end Oneshot

namespace FsPerms

/-- `Perms` wraps a `u32` permission bitmask (nano-fs-perms lib.rs:60-61). -/
structure Perms where
  val : Nat
  deriving Repr, DecidableEq

/-- `Perms::NONE` (lib.rs:99). -/
def Perms.NONE : Perms := ⟨0⟩

/-- `Perms::OWNER_READ` (lib.rs:106): `S_IRUSR`. -/
def Perms.OWNER_READ : Perms := ⟨0o400⟩

/-- `Perms::OWNER_WRITE` (lib.rs:113): `S_IWUSR`. -/
def Perms.OWNER_WRITE : Perms := ⟨0o200⟩

/-- `Perms::OWNER_EXEC` (lib.rs:120): `S_IXUSR`. -/
def Perms.OWNER_EXEC : Perms := ⟨0o100⟩

/-- `Perms::OWNER_ALL` as written in the source (lib.rs:129): `Self(0o70)`.
Its own doc comment (lib.rs:122-128) states the value should be `0o700`,
equivalent to `OWNER_READ | OWNER_WRITE | OWNER_EXEC` (`S_IRWXU`). -/
def Perms.OWNER_ALL : Perms := ⟨0o70⟩

/-- `Perms::GROUP_READ` (lib.rs:136): `S_IRGRP`. -/
def Perms.GROUP_READ : Perms := ⟨0o40⟩

/-- `Perms::GROUP_WRITE` (lib.rs:143): `S_IWGRP`. -/
def Perms.GROUP_WRITE : Perms := ⟨0o20⟩

/-- `Perms::GROUP_EXEC` (lib.rs:150): `S_IXGRP`. -/
def Perms.GROUP_EXEC : Perms := ⟨0o10⟩

/-- `Perms::GROUP_ALL` (lib.rs:159): `S_IRWXG`. -/
def Perms.GROUP_ALL : Perms := ⟨0o70⟩

/-- `impl ops::BitOr for Perms` (lib.rs:353-359). -/
def Perms.bitor (a b : Perms) : Perms := ⟨a.val ||| b.val⟩

end FsPerms

namespace Leb128

/-- `LEB128_HIGH_ORDER_BIT` (nano-leb128 lib.rs:377): `1 << 7`. -/
def LEB128_HIGH_ORDER_BIT : Nat := 1 <<< 7

/-- `LEB128_SIGN_BIT` (lib.rs:378): `1 << 6`. -/
def LEB128_SIGN_BIT : Nat := 1 <<< 6

/-- `LEB128DecodeError` (lib.rs:330-336). -/
inductive LEB128DecodeError where
  | BufferOverflow
  | IntegerOverflow
  deriving Repr, DecidableEq

/-- `LEB128EncodeError` (lib.rs:356-360). -/
inductive LEB128EncodeError where
  | BufferOverflow
  deriving Repr, DecidableEq

/-- The byte sequence produced by the loop of `impl LEB128Encode for
ULEB128` (lib.rs:535-556).  `value` is the `u64` being encoded;
`(value as u8) & !LEB128_HIGH_ORDER_BIT` is `(value % 2 ^ 8) &&& 127`, and
`value >>= 7` is `value >>> 7`.  The high-order bit is set on every byte
except the last. -/
def uleb128Bytes (value : Nat) : List Nat :=
  let byte := (value % 2 ^ 8) &&& 127
  if h : value >>> 7 = 0 then [byte]
  else (byte ||| LEB128_HIGH_ORDER_BIT) :: uleb128Bytes (value >>> 7)
termination_by value
decreasing_by
  rw [Nat.shiftRight_eq_div_pow] at h ⊢
  omega

/-- `ULEB128::write_into` (lib.rs:261-263, 396-401, 535-556): encode into a
buffer of length `cap` via a `byteio::Writer`.  The writer accepts exactly
`cap` bytes and `try_write_u8` fails with `BufferOverflow` beyond that, so
the call succeeds, returning the written bytes and their count
(`num_bytes_written`), exactly when the encoding fits. -/
def ULEB128.write_into (value cap : Nat) :
    Except LEB128EncodeError (List Nat × Nat) :=
  let bytes := uleb128Bytes value
  if bytes.length ≤ cap then .ok (bytes, bytes.length)
  else .error .BufferOverflow

/-- The loop of `impl LEB128Decode for ULEB128` (lib.rs:510-533), reading
from a byte list; returns the decoded `u64` and the number of bytes read.
`shift` only ever takes the values 0, 7, ..., 63 starting from 0: a byte
read at shift 63 either triggers the `IntegerOverflow` guard or has its
high-order bit clear (`byte ≤ 1`) and ends the loop, so `<< shift` never
exceeds 64 bits here and the `u64` arithmetic cannot wrap. -/
def uleb128Decode : List Nat → Nat → Nat →
    Except LEB128DecodeError (Nat × Nat)
  | [], _, _ => .error .BufferOverflow
  | byte :: rest, shift, result =>
    if shift = 63 ∧ byte > 1 then .error .IntegerOverflow
    else
      let result' := result ||| ((byte &&& 127) <<< shift)
      if byte &&& LEB128_HIGH_ORDER_BIT = 0 then .ok (result', 1)
      else
        match uleb128Decode rest (shift + 7) result' with
        | .ok (v, n) => .ok (v, n + 1)
        | .error e => .error e

/-- `ULEB128::read_from` (lib.rs:253-255, 389-394): decode from the front of
`buf`; on success returns the value and `num_bytes_read`. -/
def ULEB128.read_from (buf : List Nat) : Except LEB128DecodeError (Nat × Nat) :=
  uleb128Decode buf 0 0

/-- The byte sequence produced by the loop of `impl LEB128Encode for
SLEB128` (lib.rs:482-506).  `value` is the `i64` being encoded:
`(value as u8) & !LEB128_HIGH_ORDER_BIT` takes the low 8 bits of the two's
complement pattern (`(value % 2 ^ 8).toNat`) masked to 7 bits, and
`value >>= 7` is an arithmetic shift right, i.e. flooring division
(`Int.fdiv`) by `2 ^ 7`.  The loop continues (`more`) unless the shifted
value is 0 with the sign bit of the byte clear, or -1 with it set. -/
def sleb128Bytes (value : Int) : List Nat :=
  let byte := (value % 2 ^ 8).toNat &&& 127
  if h : (value.fdiv (2 ^ 7) = 0 ∧ byte &&& LEB128_SIGN_BIT = 0) ∨
      (value.fdiv (2 ^ 7) = -1 ∧ byte &&& LEB128_SIGN_BIT ≠ 0) then
    [byte]
  else
    (byte ||| LEB128_HIGH_ORDER_BIT) :: sleb128Bytes (value.fdiv (2 ^ 7))
termination_by value.natAbs
decreasing_by
  unfold byte at h
  simp only [LEB128_SIGN_BIT] at h
  have hfd : value.fdiv (2 ^ 7) = value / 2 ^ 7 := Int.fdiv_eq_ediv _ (by norm_num)
  have hb7 : (value % 2 ^ 8).toNat &&& 127 = (value % 2 ^ 7).toNat := by
    have h127 : (127 : Nat) = 2 ^ 7 - 1 := by norm_num
    rw [h127, Nat.and_pow_two_sub_one_eq_mod]
    have p7 : (2 : Int) ^ 7 = 128 := by norm_num
    have p8 : (2 : Int) ^ 8 = 256 := by norm_num
    rw [p7, p8]
    omega
  rw [hfd] at h ⊢
  rw [hb7] at h
  have hblt : (value % 2 ^ 7).toNat < 128 := by
    have p7 : (2 : Int) ^ 7 = 128 := by norm_num
    rw [p7]
    omega
  have h64 : ((value % 2 ^ 7).toNat &&& 1 <<< 6 = 0) ↔ (value % 2 ^ 7).toNat < 64 := by
    revert hblt
    generalize (value % 2 ^ 7).toNat = m
    revert m
    decide
  push_neg at h
  have p7 : (2 : Int) ^ 7 = 128 := by norm_num
  rw [p7] at h h64 hblt ⊢
  omega

/-- `SLEB128::write_into` (lib.rs:143-145, 396-401, 482-506): encode into a
buffer of length `cap`; the writer accepts exactly `cap` bytes, so the call
succeeds, returning the written bytes and `num_bytes_written`, exactly when
the encoding fits. -/
def SLEB128.write_into (value : Int) (cap : Nat) :
    Except LEB128EncodeError (List Nat × Nat) :=
  let bytes := sleb128Bytes value
  if bytes.length ≤ cap then .ok (bytes, bytes.length)
  else .error .BufferOverflow

/-- The loop of `impl LEB128Decode for SLEB128` (lib.rs:453-472), reading
from a byte list.  `result` is the 64-bit two's complement pattern of the
`i64` accumulator; the i64 shift `(byte & 0x7f) << shift` wraps modulo
`2 ^ 64` (at shift 63 the guard has already restricted the byte to `0x00`
or `0x7f`, whose shifted patterns wrap to `0` and `2 ^ 63`).  Returns the
accumulated pattern, the final (high-bit-clear) byte, the shift value after
the loop (incremented once more before the break), and the number of bytes
read. -/
def sleb128DecodeLoop : List Nat → Nat → Nat →
    Except LEB128DecodeError (Nat × Nat × Nat × Nat)
  | [], _, _ => .error .BufferOverflow
  | byte :: rest, shift, result =>
    if shift = 63 ∧ byte ≠ 0 ∧ byte ≠ 127 then .error .IntegerOverflow
    else
      let result' := result ||| (((byte &&& 127) <<< shift) % 2 ^ 64)
      if byte &&& LEB128_HIGH_ORDER_BIT = 0 then .ok (result', byte, shift + 7, 1)
      else
        match sleb128DecodeLoop rest (shift + 7) result' with
        | .ok (v, b, sh, n) => .ok (v, b, sh, n + 1)
        | .error e => .error e

/-- Two's complement reading of a 64-bit pattern: the `i64` whose bit
pattern is `p`. -/
def i64ofPattern (p : Nat) : Int :=
  if p < 2 ^ 63 then (p : Int) else (p : Int) - 2 ^ 64

/-- `SLEB128::read_from` (lib.rs:135-137, 389-394, 452-479): run the decode
loop, then sign-extend (lib.rs:474-476): if the loop stopped below 64 bits
(`shift < 8 * size_of::<i64>()`) and the final byte has the sign bit set,
`result |= !0 << shift` fills the pattern's high bits (again wrapping modulo
`2 ^ 64`).  Returns the decoded `i64` and `num_bytes_read`. -/
def SLEB128.read_from (buf : List Nat) : Except LEB128DecodeError (Int × Nat) :=
  match sleb128DecodeLoop buf 0 0 with
  | .ok (result, byte, shift, n) =>
    let result' :=
      if shift < 64 ∧ byte &&& LEB128_SIGN_BIT ≠ 0 then
        result ||| (((2 ^ 64 - 1) <<< shift) % 2 ^ 64)
      else result
    .ok (i64ofPattern result', n)
  | .error e => .error e

end Leb128

/-! ### Theorems -/

namespace Oneshot

/-- Every atomic transition leaves both strong counts non-increasing. -/
theorem step_counts_mono {T : Type} {s s' : ChanState T} (h : Step s s') :
    s'.mutexCount ≤ s.mutexCount ∧ s'.condvarCount ≤ s.condvarCount := by
  cases h <;>
    simp [Sender.write, Sender.drop, Receiver.drop, Receiver.take]

/-- In every reachable state the two strong counts equal the number of live
endpoint handles. -/
theorem reachable_count_inv {T : Type} {s : ChanState T} (h : Reachable s) :
    CountInv s := by
  induction h with
  | init => simp [channel, CountInv, liveCount]
  | step hr hs ih =>
    rcases ih with ⟨h1, h2⟩
    cases hs with
    | write v hl =>
      simpa [Sender.write, CountInv] using ⟨h1, h2⟩
    | senderDrop hl =>
      simp [Sender.drop, CountInv, liveCount, hl] at *
      omega
    | receiverDrop hl =>
      simp [Receiver.drop, CountInv, liveCount, hl] at *
      omega
    | receiverTake hl hm =>
      simp [Receiver.take, Receiver.drop, CountInv, liveCount, hl] at *
      omega

end Oneshot

namespace Oneshot

/-- C1: after `channel()`, `send(v)` returns `Ok(())`, and a subsequent
`recv()` returns `Ok(v)` on its first loop iteration (empty wait schedule —
no blocking needed).  Delivery is exactly-once: the final state has the slot
emptied and both strong counts at zero (handles consumed, state released),
so no second delivery can occur. -/
theorem oneshot_round_trip (T : Type) (v : T) :
    (Sender.send (channel T) v).2 = .ok () ∧
    Receiver.recv ((Sender.send (channel T) v).1) [] =
      some ({ slot := none, mutexCount := 0, condvarCount := 0, signals := 2,
              senderLive := false, receiverLive := false }, .ok v) :=
  ⟨rfl, rfl⟩

/-- C3: with the receiver already dropped, `is_disconnected()` on the sender
reports `true`, and `send(v)` returns `Err(SendError::Disconnected(v))`
carrying back exactly `v`; the shared slot stays empty. -/
theorem send_after_receiver_dropped (T : Type) (v : T) :
    Sender.is_disconnected (Receiver.drop (channel T)) = true ∧
    Sender.send (Receiver.drop (channel T)) v =
      ({ slot := none, mutexCount := 0, condvarCount := 0, signals := 1,
         senderLive := false, receiverLive := false },
       .error (.Disconnected v)) :=
  ⟨rfl, rfl⟩

/-- C4: with the sender already dropped (without sending), `recv()` returns
`Err(RecvError::Disconnected)` with an empty wait schedule (its first
`try_unwrap` succeeds, so it never blocks), and `recv_timeout(t)` for any
`t` likewise returns `Err(RecvTimeoutError::Disconnected)` with total wait
time `0` (no wait on the primitive is performed). -/
theorem recv_after_sender_dropped (T : Type) (t : Nat) :
    Receiver.recv (Sender.drop (channel T)) [] =
      some ({ slot := none, mutexCount := 0, condvarCount := 0, signals := 1,
              senderLive := false, receiverLive := false },
            .error .Disconnected) ∧
    Receiver.recv_timeout t (Sender.drop (channel T)) [] =
      some ({ slot := none, mutexCount := 0, condvarCount := 0, signals := 1,
              senderLive := false, receiverLive := false },
            .error .Disconnected, 0) :=
  ⟨rfl, rfl⟩

/-- C5: `recv_timeout` consumes the receiver on the `TimedOut` outcome as
well (the early-return path drops its `Arc`s), after which the still-live
sender observes disconnection and `send(v)` fails with `Disconnected(v)`. -/
theorem recv_timeout_consumes_receiver (T : Type) (t : Nat) (v : T) :
    Receiver.recv_timeout t (channel T) [.expire] =
      some (Receiver.drop (channel T), .error .TimedOut, t) ∧
    (Receiver.drop (channel T)).receiverLive = false ∧
    Sender.is_disconnected (Receiver.drop (channel T)) = true ∧
    (Sender.send (Receiver.drop (channel T)) v).2 = .error (.Disconnected v) := by
  refine ⟨?_, rfl, rfl, rfl⟩
  simp [Receiver.recv_timeout, Receiver.recvTimeoutLoop, channel]

/-- C8: dropping the sender raises a signal on the wait/notify primitive
(first conjunct), and a receiver that entered `recv()` on a fresh channel
and blocked is woken by that signal and returns `Err(Disconnected)` on the
very next loop iteration (schedule consisting of exactly the sender drop). -/
theorem sender_drop_signals_blocked_recv (T : Type) :
    (∀ s : ChanState T, (Sender.drop s).signals = s.signals + 1) ∧
    Receiver.recv (channel T) [SenderAct.drop] =
      some ({ slot := none, mutexCount := 0, condvarCount := 0, signals := 0,
              senderLive := false, receiverLive := false },
            .error .Disconnected) :=
  ⟨fun _ => rfl, rfl⟩

end Oneshot

namespace Oneshot

/-- C6: in every reachable state, a live endpoint's `is_disconnected()`
returns `true` exactly when its peer has been disposed of (it is the sole
remaining reference), and the check is non-mutating — it is a pure function
of the state, and non-disposal operations (the slot write) leave its result
unchanged, so repeated calls agree while no disposal intervenes. -/
theorem is_disconnected_iff_sole_reference {T : Type} (s : ChanState T)
    (h : Reachable s) :
    (s.senderLive = true → Sender.is_disconnected s = !s.receiverLive) ∧
    (s.receiverLive = true → Receiver.is_disconnected s = !s.senderLive) ∧
    (∀ v : T, Sender.is_disconnected (Sender.write s v) = Sender.is_disconnected s) ∧
    (∀ v : T, Receiver.is_disconnected (Sender.write s v) = Receiver.is_disconnected s) := by
  obtain ⟨h1, h2⟩ := reachable_count_inv h
  refine ⟨?_, ?_, fun v => rfl, fun v => rfl⟩
  · intro hl
    cases hrl : s.receiverLive <;>
      simp [Sender.is_disconnected, h1, h2, hl, hrl, liveCount]
  · intro hl
    cases hsl : s.senderLive <;>
      simp [Receiver.is_disconnected, h1, h2, hl, hsl, liveCount]

/-- Witness for C6 at a concrete reachable state: after the receiver of a
fresh channel is dropped, the sender's `is_disconnected()` is `true`. -/
theorem is_disconnected_witness :
    Sender.is_disconnected (Receiver.drop (channel Nat)) = true :=
  (is_disconnected_iff_sole_reference (Receiver.drop (channel Nat))
      (Reachable.step Reachable.init (Step.receiverDrop rfl))).1 rfl

/-- C7: the strong counts (the liveness count of the shared state) start at
2 at `channel()`, are monotonically non-increasing under every atomic
operation, are decremented by exactly one by each disposal operation (which
also marks that endpoint dead, and `Step` only permits disposal of a live
endpoint, so each endpoint is disposed of at most once), and in every
reachable state they are 0 exactly when both endpoints have been disposed
of. -/
theorem liveness_count_invariant (T : Type) :
    (channel T).mutexCount = 2 ∧ (channel T).condvarCount = 2 ∧
    (∀ s s' : ChanState T, Step s s' →
      s'.mutexCount ≤ s.mutexCount ∧ s'.condvarCount ≤ s.condvarCount) ∧
    (∀ s : ChanState T,
      (Sender.drop s).mutexCount = s.mutexCount - 1 ∧
      (Sender.drop s).senderLive = false ∧
      (Receiver.drop s).mutexCount = s.mutexCount - 1 ∧
      (Receiver.drop s).receiverLive = false ∧
      (Receiver.take s).mutexCount = s.mutexCount - 1 ∧
      (Receiver.take s).receiverLive = false) ∧
    (∀ s : ChanState T, Reachable s →
      ((s.mutexCount = 0 ∧ s.condvarCount = 0) ↔
        (s.senderLive = false ∧ s.receiverLive = false))) := by
  refine ⟨rfl, rfl, fun s s' h => step_counts_mono h,
    fun s => ⟨rfl, rfl, rfl, rfl, rfl, rfl⟩, ?_⟩
  intro s hs
  obtain ⟨h1, h2⟩ := reachable_count_inv hs
  cases hsl : s.senderLive <;> cases hrl : s.receiverLive <;>
    simp [h1, h2, hsl, hrl, liveCount]

/-- Witness for C7 at concrete inputs: the sender-drop step from a fresh
channel does not increase the count, and the fresh channel (count 2, both
ends live) satisfies the zero-count characterisation. -/
theorem liveness_count_witness :
    (Sender.drop (channel Nat)).mutexCount ≤ (channel Nat).mutexCount ∧
    ((channel Nat).mutexCount = 0 ∧ (channel Nat).condvarCount = 0 ↔
      (channel Nat).senderLive = false ∧ (channel Nat).receiverLive = false) :=
  ⟨((liveness_count_invariant Nat).2.2.1 _ _ (Step.senderDrop rfl)).1,
   (liveness_count_invariant Nat).2.2.2.2 _ Reachable.init⟩

end Oneshot

namespace Oneshot

/-- C2 counterexample: a single `recv_timeout(10)` call on a fresh channel
whose sender concurrently performs the slot write (with its notify) during a
first wait and the handle drop (with its notify) during a second wait.  Both
waits are signalled just at the 10-unit mark — each wait is legal for the
full captured `timeout` bound of 10 that the code passes to every
`wait_for` — so the call succeeds with `Ok(5)` after a total waiting time
of 20, which exceeds the original 10-unit budget.  This refutes the claim
that each wait is bounded by the remaining budget and that total waiting
never exceeds the timeout. -/
theorem recv_timeout_budget_counterexample :
    Receiver.recv_timeout 10 (channel Nat)
        [.wake 10 (.write 5), .wake 10 .drop] =
      some ({ slot := none, mutexCount := 0, condvarCount := 0, signals := 0,
              senderLive := false, receiverLive := false }, .ok 5, 20) ∧
    ¬(20 ≤ 10) :=
  ⟨rfl, by decide⟩

/-- C2 amended: every individual wait inside `recv_timeout` is bounded by
the full original `timeout` (the closure captures `timeout` and passes it
unchanged to each `wait_for`), so the total waiting time of a call is
bounded by `timeout` times the number of waits — not by `timeout` itself —
and whenever an individual wait's bound elapses before it is signalled the
call returns `Err(RecvTimeoutError::TimedOut)`. -/
theorem recv_timeout_full_timeout_bound (T : Type) (timeout : Nat) :
    (∀ (s : ChanState T) (sched : List (Receiver.TimedWait T))
        (elapsed : Nat) (s' : ChanState T) (r : Except RecvTimeoutError T)
        (e : Nat),
      Receiver.recvTimeoutLoop timeout s sched elapsed = some (s', r, e) →
      e ≤ elapsed + timeout * sched.length) ∧
    (∀ (s : ChanState T) (rest : List (Receiver.TimedWait T)) (elapsed : Nat),
      s.mutexCount ≠ 1 →
      Receiver.recvTimeoutLoop timeout s (.expire :: rest) elapsed =
        some (Receiver.drop s, .error .TimedOut, elapsed + timeout)) := by
  constructor
  · intro s sched
    induction sched generalizing s with
    | nil =>
      intro elapsed s' r e h
      by_cases hm : s.mutexCount = 1
      · simp [Receiver.recvTimeoutLoop, hm] at h
        omega
      · simp [Receiver.recvTimeoutLoop, hm] at h
    | cons a rest ih =>
      intro elapsed s' r e h
      by_cases hm : s.mutexCount = 1
      · rw [Receiver.recvTimeoutLoop.eq_def] at h
        simp [hm] at h
        omega
      · cases a with
        | expire =>
          simp [Receiver.recvTimeoutLoop, hm] at h
          have hmul : timeout * (rest.length + 1) =
              timeout * rest.length + timeout := Nat.mul_succ timeout rest.length
          simp only [List.length_cons, hmul]
          omega
        | wake d act =>
          rw [Receiver.recvTimeoutLoop.eq_def] at h
          simp only [hm, if_false, reduceIte] at h
          split at h
          · have hb := ih _ _ _ _ _ h
            have hd : min d timeout ≤ timeout := Nat.min_le_right d timeout
            have hmul : timeout * (rest.length + 1) =
                timeout * rest.length + timeout := Nat.mul_succ timeout rest.length
            simp only [List.length_cons, hmul]
            omega
          · cases h
  · intro s rest elapsed hm
    rw [Receiver.recvTimeoutLoop.eq_def]
    simp [hm]

/-- Witness for C2's amended theorem at concrete inputs: a fresh channel,
`timeout = 10`, and the one-entry schedule whose single wait expires. -/
theorem recv_timeout_full_timeout_bound_witness :
    (10 : Nat) ≤ 0 + 10 * 1 ∧
    Receiver.recvTimeoutLoop 10 (channel Nat) [.expire] 0 =
      some (Receiver.drop (channel Nat), .error .TimedOut, 0 + 10) :=
  ⟨(recv_timeout_full_timeout_bound Nat 10).1 (channel Nat) [.expire] 0
      (Receiver.drop (channel Nat)) (.error .TimedOut) 10 rfl,
   (recv_timeout_full_timeout_bound Nat 10).2 (channel Nat) [] 0 (by decide)⟩

end Oneshot

namespace FsPerms

/-- C9 (code bug): the source defines `Perms::OWNER_ALL` as `Self(0o70)`
(lib.rs:129), but its own doc comment (lib.rs:122-128) says the value is
`0o700`, equivalent to `OWNER_READ | OWNER_WRITE | OWNER_EXEC`; the crate's
test suite also asserts that this OR is `0o700` and displays as
`rwx------`.  As written, `OWNER_ALL` is not that OR: it coincides with
`GROUP_ALL` instead. -/
theorem owner_all_contradicts_docs :
    Perms.OWNER_ALL.val = 0o70 ∧
    (Perms.bitor (Perms.bitor Perms.OWNER_READ Perms.OWNER_WRITE)
        Perms.OWNER_EXEC).val = 0o700 ∧
    Perms.OWNER_ALL ≠
      Perms.bitor (Perms.bitor Perms.OWNER_READ Perms.OWNER_WRITE)
        Perms.OWNER_EXEC ∧
    Perms.OWNER_ALL = Perms.GROUP_ALL := by
  refine ⟨rfl, by decide, by decide, rfl⟩

end FsPerms

namespace Leb128

/-- The u8 cast-and-mask in the ULEB128 encoder keeps the low 7 bits. -/
theorem uleb_byte_eq (v : Nat) : (v % 2 ^ 8) &&& 127 = v % 2 ^ 7 := by
  have h127 : (127 : Nat) = 2 ^ 7 - 1 := by norm_num
  rw [h127, Nat.and_pow_two_sub_one_eq_mod, Nat.mod_mod_of_dvd]
  exact ⟨2, by norm_num⟩

/-- Exhaustive facts about single encoded bytes (`b` is a 7-bit payload):
setting the high-order bit is addition of 128, masking recovers the
payload, and the high-order-bit test distinguishes the two forms. -/
theorem byte_facts : ∀ b : Nat, b < 128 →
    (b ||| 128 = b + 128) ∧ ((b + 128) &&& 127 = b) ∧
    ¬((b + 128) &&& 128 = 0) ∧ (b &&& 127 = b) ∧ (b &&& 128 = 0) := by
  decide

/-- Merging a value shifted past the width of the accumulator is addition. -/
theorem lor_shiftLeft_eq_add {a x k : Nat} (h : a < 2 ^ k) :
    a ||| x <<< k = a + x * 2 ^ k := by
  rw [Nat.shiftLeft_eq, Nat.mul_comm x (2 ^ k), Nat.lor_comm,
    ← Nat.mul_add_lt_is_or h x, Nat.add_comm]

end Leb128

namespace Leb128

/-- Decoding an encoded `u64` from any position of the decode loop recovers
the value: if the loop is entered at a 7-aligned `shift` at most 63 with an
accumulator below `2 ^ shift` and the remaining value fits in the remaining
bits, it consumes exactly the encoding and adds the value at that shift. -/
theorem uleb128_decode_encode :
    ∀ v : Nat, ∀ (shift acc : Nat) (rest : List Nat),
      shift ≤ 63 → 7 ∣ shift → v < 2 ^ (64 - shift) → acc < 2 ^ shift →
      uleb128Decode (uleb128Bytes v ++ rest) shift acc =
        .ok (acc + v * 2 ^ shift, (uleb128Bytes v).length) := by
  intro v
  induction v using Nat.strong_induction_on with
  | _ v ih =>
  intro shift acc rest hs hs7 hv hacc
  have hpow : (2 : Nat) ^ 7 = 128 := by norm_num
  have hbyte : (v % 2 ^ 8) &&& 127 = v % 2 ^ 7 := uleb_byte_eq v
  by_cases hz : v >>> 7 = 0
  · have hv128 : v < 128 := by
      rw [Nat.shiftRight_eq_div_pow, hpow] at hz
      omega
    have hbytes : uleb128Bytes v = [v] := by
      rw [uleb128Bytes, dif_pos hz, hbyte, hpow, Nat.mod_eq_of_lt hv128]
    rw [hbytes]
    simp only [List.cons_append, List.nil_append, uleb128Decode]
    have hguard : ¬(shift = 63 ∧ v > 1) := by
      rintro ⟨h63, hv1⟩
      subst h63
      norm_num at hv
      omega
    rw [if_neg hguard]
    obtain ⟨hor, hmask, hhob, hmask', hhob'⟩ := byte_facts v hv128
    simp only [hmask', LEB128_HIGH_ORDER_BIT]
    have hhob128 : (1 : Nat) <<< 7 = 128 := by decide
    rw [hhob128, if_pos hhob', lor_shiftLeft_eq_add hacc]
    simp [hbytes]
  · have hv128 : 128 ≤ v := by
      rw [Nat.shiftRight_eq_div_pow, hpow] at hz
      omega
    have h57 : shift < 57 := by
      by_contra hcon
      push_neg at hcon
      have h1 : (64 - shift) ≤ 7 := by omega
      have h2 : (2 : Nat) ^ (64 - shift) ≤ 2 ^ 7 :=
        Nat.pow_le_pow_right (by norm_num) h1
      omega
    have hb : v % 2 ^ 7 < 128 := by omega
    obtain ⟨hor, hmask, hhob, hmask', hhob'⟩ := byte_facts (v % 2 ^ 7) hb
    have hbytes : uleb128Bytes v =
        (v % 2 ^ 7 + 128) :: uleb128Bytes (v >>> 7) := by
      rw [uleb128Bytes, dif_neg hz, hbyte]
      rw [show LEB128_HIGH_ORDER_BIT = 128 from rfl, hor]
    rw [hbytes]
    simp only [List.cons_append, uleb128Decode]
    rw [if_neg (by omega : ¬(shift = 63 ∧ v % 2 ^ 7 + 128 > 1))]
    simp only [hmask, LEB128_HIGH_ORDER_BIT]
    rw [show (1 : Nat) <<< 7 = 128 by decide, if_neg hhob,
      lor_shiftLeft_eq_add hacc]
    have hpows : (2 : Nat) ^ (64 - shift) = 2 ^ (57 - shift) * 128 := by
      rw [← hpow, ← pow_add]
      congr 1
      omega
    have hih := ih (v >>> 7)
      (by rw [Nat.shiftRight_eq_div_pow, hpow]; omega)
      (shift + 7) (acc + v % 2 ^ 7 * 2 ^ shift) rest
      (by omega) (by omega)
      (by
        rw [Nat.shiftRight_eq_div_pow, hpow]
        have : (2 : Nat) ^ (64 - (shift + 7)) = 2 ^ (57 - shift) := by
          congr 1
          omega
        rw [this]
        rw [hpows] at hv
        exact Nat.div_lt_of_lt_mul (by omega))
      (by
        have he : (2 : Nat) ^ (shift + 7) = 2 ^ shift * 128 := by
          rw [pow_add, hpow]
        have hmul : v % 2 ^ 7 * 2 ^ shift ≤ 127 * 2 ^ shift :=
          Nat.mul_le_mul_right _ (by omega)
        have hpos : (0 : Nat) < 2 ^ shift := Nat.two_pow_pos shift
        linarith)
    simp only [List.append_eq]
    rw [hih]
    have hsplit : v = 128 * (v >>> 7) + v % 2 ^ 7 := by
      rw [Nat.shiftRight_eq_div_pow, hpow]
      omega
    have hval : acc + v % 2 ^ 7 * 2 ^ shift + v >>> 7 * 2 ^ (shift + 7) =
        acc + v * 2 ^ shift := by
      conv_rhs => rw [hsplit]
      have he : (2 : Nat) ^ (shift + 7) = 2 ^ shift * 128 := by
        rw [pow_add, hpow]
      rw [he]
      ring
    rw [hval]
    simp

end Leb128

namespace Leb128

/-- A `u64` below `2 ^ (7 * (k + 1))` encodes into at most `k + 1` bytes. -/
theorem uleb128Bytes_length (k : Nat) :
    ∀ v : Nat, v < 2 ^ (7 * (k + 1)) → (uleb128Bytes v).length ≤ k + 1 := by
  induction k with
  | zero =>
    intro v hv
    norm_num at hv
    have hz : v >>> 7 = 0 := by
      rw [Nat.shiftRight_eq_div_pow]
      omega
    rw [uleb128Bytes, dif_pos hz]
    simp
  | succ k ih =>
    intro v hv
    rw [uleb128Bytes]
    split
    · simp
    · simp only [List.length_cons]
      have hbound : v >>> 7 < 2 ^ (7 * (k + 1)) := by
        rw [Nat.shiftRight_eq_div_pow]
        have he : (2 : Nat) ^ (7 * (k + 1 + 1)) = 2 ^ 7 * 2 ^ (7 * (k + 1)) := by
          rw [← pow_add]
          congr 1
          ring
        rw [he] at hv
        exact Nat.div_lt_of_lt_mul hv
      have := ih (v >>> 7) hbound
      omega

end Leb128

namespace Leb128

/-- The u8 cast-and-mask in the SLEB128 encoder keeps the low 7 bits of the
two's complement pattern. -/
theorem sleb_byte_eq (w : Int) : (w % 2 ^ 8).toNat &&& 127 = (w % 2 ^ 7).toNat := by
  have h127 : (127 : Nat) = 2 ^ 7 - 1 := by norm_num
  rw [h127, Nat.and_pow_two_sub_one_eq_mod]
  have p7 : (2 : Int) ^ 7 = 128 := by norm_num
  have p8 : (2 : Int) ^ 8 = 256 := by norm_num
  have n7 : (2 : Nat) ^ 7 = 128 := by norm_num
  rw [p7, p8, n7]
  omega

/-- The sign-bit test on a 7-bit payload is a comparison with 64. -/
theorem sign_bit_iff : ∀ b : Nat, b < 128 → ((b &&& 64 = 0) ↔ b < 64) := by
  decide

/-- Base-128 digit decomposition of euclidean remainders. -/
theorem int_emod_mul_decomp (v K : Int) (hK : 0 < K) :
    v % (128 * K) = v % 128 + 128 * (v / 128 % K) := by
  have e1 := Int.ediv_add_emod v 128
  have e2 := Int.ediv_add_emod (v / 128) K
  have h1 : v = 128 * K * (v / 128 / K) + (v % 128 + 128 * (v / 128 % K)) := by
    linear_combination -e1 - 128 * e2
  have hr1a : (0 : Int) ≤ v % 128 := Int.emod_nonneg v (by norm_num)
  have hr1b : v % 128 < 128 := Int.emod_lt_of_pos v (by norm_num)
  have hr2a : (0 : Int) ≤ v / 128 % K := Int.emod_nonneg _ (ne_of_gt hK)
  have hr2b : v / 128 % K < K := Int.emod_lt_of_pos _ hK
  have hXlt : v % 128 + 128 * (v / 128 % K) < 128 * K := by
    have h128 : 128 * (v / 128 % K + 1) ≤ 128 * K := by
      apply Int.mul_le_mul_of_nonneg_left _ (by norm_num)
      omega
    linarith
  conv_lhs => rw [h1, Int.add_comm]
  rw [Int.add_mul_emod_self_left]
  exact Int.emod_eq_of_lt (by linarith) hXlt

/-- The pattern of `!0 << shift` on i64: all bits from `s` up. -/
theorem shift_all_ones {s : Nat} (hs : s ≤ 64) :
    ((2 ^ 64 - 1) <<< s) % 2 ^ 64 = 2 ^ 64 - 2 ^ s := by
  rw [Nat.shiftLeft_eq]
  have hA : (1 : Nat) ≤ 2 ^ s := Nat.one_le_two_pow
  have hB : (2 : Nat) ^ s ≤ 2 ^ 64 := Nat.pow_le_pow_right (by norm_num) hs
  have key : (2 ^ 64 - 1) * 2 ^ s = 2 ^ 64 * (2 ^ s - 1) + (2 ^ 64 - 2 ^ s) := by
    rw [Nat.sub_mul, Nat.mul_sub, one_mul, Nat.mul_one, Nat.mul_comm]
    omega
  rw [key, Nat.mul_add_mod]
  exact Nat.mod_eq_of_lt (by omega)

/-- Merging the sign-extension bits into a pattern below them is addition. -/
theorem lor_high {P s : Nat} (hP : P < 2 ^ s) (hs : s ≤ 64) :
    P ||| (2 ^ 64 - 2 ^ s) = P + (2 ^ 64 - 2 ^ s) := by
  have hsum : 64 - s + s = 64 := by omega
  have key : (2 : Nat) ^ 64 - 2 ^ s = (2 ^ (64 - s) - 1) * 2 ^ s := by
    rw [Nat.sub_mul, one_mul, ← pow_add, hsum]
  rw [key, ← Nat.shiftLeft_eq, lor_shiftLeft_eq_add hP, Nat.shiftLeft_eq]

end Leb128

namespace Leb128

/-- When the SLEB128 encoder loops, the shifted value is strictly smaller in
absolute value. -/
theorem sleb_natAbs_lt (v : Int)
    (h : ¬((v.fdiv (2 ^ 7) = 0 ∧ (v % 2 ^ 8).toNat &&& 127 &&& LEB128_SIGN_BIT = 0) ∨
      (v.fdiv (2 ^ 7) = -1 ∧ (v % 2 ^ 8).toNat &&& 127 &&& LEB128_SIGN_BIT ≠ 0))) :
    (v.fdiv (2 ^ 7)).natAbs < v.natAbs := by
  rw [sleb_byte_eq] at h
  have hfd : v.fdiv (2 ^ 7) = v / 2 ^ 7 := Int.fdiv_eq_ediv _ (by norm_num)
  rw [hfd] at h ⊢
  have p7 : (2 : Int) ^ 7 = 128 := by norm_num
  rw [p7] at h ⊢
  have hblt : ((v % (128 : Int)).toNat) < 128 := by omega
  have h64 := sign_bit_iff ((v % (128 : Int)).toNat) hblt
  rw [show LEB128_SIGN_BIT = 64 from rfl] at h
  push_neg at h
  omega

/-- Reduction of one decode-loop step that ends the loop (high bit clear). -/
theorem sleb_decode_step_last {b : Nat} (rest : List Nat) {shift : Nat} (result : Nat)
    (hg : ¬(shift = 63 ∧ b ≠ 0 ∧ b ≠ 127)) (hb : b &&& LEB128_HIGH_ORDER_BIT = 0) :
    sleb128DecodeLoop (b :: rest) shift result =
      .ok (result ||| (b &&& 127) <<< shift % 2 ^ 64, b, shift + 7, 1) := by
  simp only [sleb128DecodeLoop]
  rw [if_neg hg, if_pos hb]

/-- Reduction of one decode-loop step that continues (high bit set). -/
theorem sleb_decode_step_cont {b : Nat} (rest : List Nat) {shift : Nat} (result : Nat)
    (hg : ¬(shift = 63 ∧ b ≠ 0 ∧ b ≠ 127)) (hb : ¬(b &&& LEB128_HIGH_ORDER_BIT = 0)) :
    sleb128DecodeLoop (b :: rest) shift result =
      match sleb128DecodeLoop rest (shift + 7) (result ||| (b &&& 127) <<< shift % 2 ^ 64) with
      | .ok (v2, b2, sh, n) => .ok (v2, b2, sh, n + 1)
      | .error e => .error e := by
  simp only [sleb128DecodeLoop]
  rw [if_neg hg, if_neg hb]

/-- Decoding an encoded `i64` from any position of the decode loop: entered
at a 7-aligned `shift` at most 63 with an accumulator below `2 ^ shift` and
a remaining signed value fitting in the remaining bits, the loop consumes
exactly the encoding, accumulates the two's complement digits of the value
at that shift, and ends on a byte whose sign bit records the value's sign. -/
theorem sleb128_decode_encode :
    ∀ (n : Nat) (v : Int), v.natAbs ≤ n →
      ∀ (shift acc : Nat) (rest : List Nat),
      shift ≤ 63 → 7 ∣ shift →
      -(2 ^ (63 - shift) : Int) ≤ v → v < 2 ^ (63 - shift) →
      acc < 2 ^ shift →
      ∃ lastB : Nat,
        sleb128DecodeLoop (sleb128Bytes v ++ rest) shift acc =
          .ok ((acc + (v % 2 ^ (7 * (sleb128Bytes v).length)).toNat * 2 ^ shift) % 2 ^ 64,
               lastB, shift + 7 * (sleb128Bytes v).length, (sleb128Bytes v).length) ∧
        lastB < 128 ∧ ((lastB &&& 64 = 0) ↔ 0 ≤ v) ∧
        (0 ≤ v → v < 2 ^ (7 * (sleb128Bytes v).length)) ∧
        (v < 0 → -(2 ^ (7 * (sleb128Bytes v).length) : Int) ≤ v) := by
  intro n
  induction n using Nat.strong_induction_on with
  | _ n ih =>
  intro v hn shift acc rest hs hs7 hlo hhi hacc
  have p7i : (2 : Int) ^ 7 = 128 := by norm_num
  have h2big : (2 : Nat) ^ 63 < 2 ^ 64 := by norm_num
  have hb7lt : (v % 2 ^ 7).toNat < 128 := by rw [p7i]; omega
  obtain ⟨hor, hmask, hhob, hmask', hhob'⟩ := byte_facts _ hb7lt
  have hfd : v.fdiv (2 ^ 7) = v / 2 ^ 7 := Int.fdiv_eq_ediv _ (by norm_num)
  by_cases hstop : (v.fdiv (2 ^ 7) = 0 ∧ (v % 2 ^ 8).toNat &&& 127 &&& LEB128_SIGN_BIT = 0) ∨
      (v.fdiv (2 ^ 7) = -1 ∧ (v % 2 ^ 8).toNat &&& 127 &&& LEB128_SIGN_BIT ≠ 0)
  · -- the encoder stops after this byte
    have hbytes : sleb128Bytes v = [(v % 2 ^ 7).toNat] := by
      rw [sleb128Bytes, dif_pos hstop, sleb_byte_eq]
    rw [hfd, sleb_byte_eq, show LEB128_SIGN_BIT = 64 from rfl, p7i] at hstop
    have hq : v / 128 = 0 ∨ v / 128 = -1 := by
      rcases hstop with ⟨hq, _⟩ | ⟨hq, _⟩
      · exact Or.inl hq
      · exact Or.inr hq
    have hguard : ¬(shift = 63 ∧ (v % 2 ^ 7).toNat ≠ 0 ∧ (v % 2 ^ 7).toNat ≠ 127) := by
      rintro ⟨hc, hne0, hne127⟩
      subst hc
      norm_num at hlo hhi
      rw [p7i] at hne0 hne127
      omega
    have hstep := sleb_decode_step_last rest acc hguard
      (by rw [show LEB128_HIGH_ORDER_BIT = 128 from rfl]; exact hhob')
    have hval : acc ||| ((v % 2 ^ 7).toNat &&& 127) <<< shift % 2 ^ 64 =
        (acc + (v % 2 ^ 7).toNat * 2 ^ shift) % 2 ^ 64 := by
      rw [hmask']
      rcases Nat.lt_or_ge shift 57 with h57 | h57
      · have hnw : (v % 2 ^ 7).toNat * 2 ^ shift < 2 ^ 63 := by
          have h1 : (v % 2 ^ 7).toNat * 2 ^ shift ≤ 127 * 2 ^ shift :=
            Nat.mul_le_mul_right _ (by omega)
          have h2 : (2 : Nat) ^ shift ≤ 2 ^ 56 :=
            Nat.pow_le_pow_right (by norm_num) (by omega)
          have h3 : (127 : Nat) * 2 ^ shift ≤ 127 * 2 ^ 56 :=
            Nat.mul_le_mul_left _ h2
          have h4 : (127 : Nat) * 2 ^ 56 < 2 ^ 63 := by norm_num
          omega
        have hacclt : acc < 2 ^ 63 := by
          have := Nat.pow_le_pow_right (show 1 ≤ 2 by norm_num) (show shift ≤ 63 by omega)
          omega
        rw [Nat.shiftLeft_eq, Nat.mod_eq_of_lt (by omega), ← Nat.shiftLeft_eq,
          lor_shiftLeft_eq_add hacc, Nat.shiftLeft_eq, Nat.mod_eq_of_lt (by omega)]
      · have h63 : shift = 63 := by omega
        subst h63
        norm_num at hlo hhi
        have hv01 : v = 0 ∨ v = -1 := by omega
        have haccmod : acc % 2 ^ 64 = acc := Nat.mod_eq_of_lt (by omega)
        rcases hv01 with rfl | rfl
        · have hz : ((0 : Int) % 2 ^ 7).toNat = 0 := by decide
          rw [hz]
          simp
          omega
        · have hm1 : ((-1 : Int) % 2 ^ 7).toNat = 127 := by decide
          rw [hm1]
          have hshl : (127 : Nat) <<< 63 % 2 ^ 64 = 2 ^ 63 := by
            rw [Nat.shiftLeft_eq]
            norm_num
          rw [hshl]
          have hlor : acc ||| 2 ^ 63 = acc + 2 ^ 63 := by
            have h1 := lor_shiftLeft_eq_add (x := 1) hacc
            rw [Nat.shiftLeft_eq, one_mul] at h1
            exact h1
          rw [hlor]
          omega
    rw [hbytes]
    simp only [List.length_singleton, Nat.mul_one]
    refine ⟨(v % 2 ^ 7).toNat, ?_, hb7lt, ?_, ?_, ?_⟩
    · rw [List.singleton_append, hstep, hval]
    · rw [p7i]
      rcases hstop with ⟨hq0, hs0⟩ | ⟨hqm, hs1⟩
      · exact iff_of_true hs0 (by omega)
      · exact iff_of_false hs1 (by omega)
    · intro h0
      rw [p7i]
      omega
    · intro h0
      rw [p7i]
      omega
  · -- the encoder loops
    have hdec := sleb_natAbs_lt v hstop
    have hbytes : sleb128Bytes v =
        ((v % 2 ^ 7).toNat + 128) :: sleb128Bytes (v.fdiv (2 ^ 7)) := by
      rw [sleb128Bytes, dif_neg hstop, sleb_byte_eq,
        show LEB128_HIGH_ORDER_BIT = 128 from rfl, hor]
    have hs63 : shift ≠ 63 := by
      intro hc
      subst hc
      norm_num at hlo hhi
      apply hstop
      rw [hfd, sleb_byte_eq, show LEB128_SIGN_BIT = 64 from rfl, p7i]
      have hv01 : v = 0 ∨ v = -1 := by omega
      rcases hv01 with rfl | rfl
      · exact Or.inl ⟨by decide, by decide⟩
      · exact Or.inr ⟨by decide, by decide⟩
    have hs56 : shift ≤ 56 := by
      rcases hs7 with ⟨c, rfl⟩
      omega
    have hguard : ¬(shift = 63 ∧ (v % 2 ^ 7).toNat + 128 ≠ 0 ∧
        (v % 2 ^ 7).toNat + 128 ≠ 127) := by
      rintro ⟨hc, _, _⟩
      exact hs63 hc
    have hstep := sleb_decode_step_cont (sleb128Bytes (v.fdiv (2 ^ 7)) ++ rest) acc hguard
      (by rw [show LEB128_HIGH_ORDER_BIT = 128 from rfl]; exact hhob)
    have hnw : (v % 2 ^ 7).toNat * 2 ^ shift < 2 ^ 63 := by
      have h1 : (v % 2 ^ 7).toNat * 2 ^ shift ≤ 127 * 2 ^ shift :=
        Nat.mul_le_mul_right _ (by omega)
      have h2 : (2 : Nat) ^ shift ≤ 2 ^ 56 :=
        Nat.pow_le_pow_right (by norm_num) hs56
      have h3 : (127 : Nat) * 2 ^ shift ≤ 127 * 2 ^ 56 := Nat.mul_le_mul_left _ h2
      have h4 : (127 : Nat) * 2 ^ 56 < 2 ^ 63 := by norm_num
      omega
    have hres : acc ||| ((v % 2 ^ 7).toNat + 128 &&& 127) <<< shift % 2 ^ 64 =
        acc + (v % 2 ^ 7).toNat * 2 ^ shift := by
      rw [hmask, Nat.shiftLeft_eq, Nat.mod_eq_of_lt (by omega), ← Nat.shiftLeft_eq,
        lor_shiftLeft_eq_add hacc, Nat.shiftLeft_eq]
    have hacc' : acc + (v % 2 ^ 7).toNat * 2 ^ shift < 2 ^ (shift + 7) := by
      have he : (2 : Nat) ^ (shift + 7) = 2 ^ shift * 128 := by
        rw [pow_add]
        norm_num
      have hmul : (v % 2 ^ 7).toNat * 2 ^ shift ≤ 127 * 2 ^ shift :=
        Nat.mul_le_mul_right _ (by omega)
      have hpos : (0 : Nat) < 2 ^ shift := Nat.two_pow_pos shift
      nlinarith
    have hMeq : (2 : Int) ^ (63 - shift) = 128 * 2 ^ (63 - (shift + 7)) := by
      rw [show (63 - shift) = 7 + (63 - (shift + 7)) by omega, pow_add, p7i]
    have hIH := ih (v.fdiv (2 ^ 7)).natAbs (by omega) (v.fdiv (2 ^ 7)) le_rfl
      (shift + 7) (acc + (v % 2 ^ 7).toNat * 2 ^ shift) rest
      (by omega)
      (by
        rcases hs7 with ⟨c, rfl⟩
        exact ⟨c + 1, by ring⟩)
      (by
        rw [hfd, p7i]
        rw [hMeq] at hlo
        omega)
      (by
        rw [hfd, p7i]
        rw [hMeq] at hhi
        omega)
      hacc'
    obtain ⟨b', hloop', hb'lt, hb'sign, hpos', hneg'⟩ := hIH
    rw [hbytes]
    simp only [List.length_cons]
    refine ⟨b', ?_, hb'lt, ?_, ?_, ?_⟩
    · rw [List.cons_append, hstep, hres, hloop']
      have hKpos : (0 : Int) < 2 ^ (7 * (sleb128Bytes (v.fdiv (2 ^ 7))).length) := by
        positivity
      have hsplit := int_emod_mul_decomp v
        (2 ^ (7 * (sleb128Bytes (v.fdiv (2 ^ 7))).length)) hKpos
      have hKe : (128 : Int) * 2 ^ (7 * (sleb128Bytes (v.fdiv (2 ^ 7))).length) =
          2 ^ (7 * ((sleb128Bytes (v.fdiv (2 ^ 7))).length + 1)) := by
        rw [show 7 * ((sleb128Bytes (v.fdiv (2 ^ 7))).length + 1) =
          7 + 7 * (sleb128Bytes (v.fdiv (2 ^ 7))).length by ring, pow_add, p7i]
      rw [hKe] at hsplit
      have h0a : (0 : Int) ≤ v % 128 := Int.emod_nonneg _ (by norm_num)
      have h0b : (0 : Int) ≤
          v / 128 % 2 ^ (7 * (sleb128Bytes (v.fdiv (2 ^ 7))).length) :=
        Int.emod_nonneg _ (ne_of_gt hKpos)
      have hkey : (v % 2 ^ (7 * ((sleb128Bytes (v.fdiv (2 ^ 7))).length + 1))).toNat =
          (v % 2 ^ 7).toNat +
            128 * ((v.fdiv (2 ^ 7)) % 2 ^ (7 * (sleb128Bytes (v.fdiv (2 ^ 7))).length)).toNat := by
        rw [hsplit, hfd, p7i]
        omega
      have he : (2 : Nat) ^ (shift + 7) = 2 ^ shift * 128 := by
        rw [pow_add]
        norm_num
      have hnum : acc + (v % 2 ^ 7).toNat * 2 ^ shift +
          ((v.fdiv (2 ^ 7)) % 2 ^ (7 * (sleb128Bytes (v.fdiv (2 ^ 7))).length)).toNat *
            2 ^ (shift + 7) =
          acc + (v % 2 ^ (7 * ((sleb128Bytes (v.fdiv (2 ^ 7))).length + 1))).toNat *
            2 ^ shift := by
        rw [hkey, he]
        ring
      have hsh : shift + 7 + 7 * (sleb128Bytes (v.fdiv (2 ^ 7))).length =
          shift + 7 * ((sleb128Bytes (v.fdiv (2 ^ 7))).length + 1) := by
        ring
      rw [hnum, hsh]
    · rw [hb'sign, hfd, p7i]
      omega
    · intro h0
      have h0' : 0 ≤ v.fdiv (2 ^ 7) := by
        rw [hfd, p7i]
        omega
      have hlt := hpos' h0'
      rw [hfd, p7i] at hlt
      have hKe : (2 : Int) ^ (7 * ((sleb128Bytes (v.fdiv (2 ^ 7))).length + 1)) =
          128 * 2 ^ (7 * (sleb128Bytes (v.fdiv (2 ^ 7))).length) := by
        rw [show 7 * ((sleb128Bytes (v.fdiv (2 ^ 7))).length + 1) =
          7 + 7 * (sleb128Bytes (v.fdiv (2 ^ 7))).length by ring, pow_add, p7i]
      rw [hKe]
      omega
    · intro h0
      have h0' : v.fdiv (2 ^ 7) < 0 := by
        rw [hfd, p7i]
        omega
      have hge := hneg' h0'
      rw [hfd, p7i] at hge
      have hKe : (2 : Int) ^ (7 * ((sleb128Bytes (v.fdiv (2 ^ 7))).length + 1)) =
          128 * 2 ^ (7 * (sleb128Bytes (v.fdiv (2 ^ 7))).length) := by
        rw [show 7 * ((sleb128Bytes (v.fdiv (2 ^ 7))).length + 1) =
          7 + 7 * (sleb128Bytes (v.fdiv (2 ^ 7))).length by ring, pow_add, p7i]
      rw [hKe]
      omega

end Leb128

namespace Leb128

/-- An `i64` in `[-2 ^ (7k + 6), 2 ^ (7k + 6))` encodes into at most `k + 1`
bytes. -/
theorem sleb128Bytes_length (k : Nat) :
    ∀ v : Int, -(2 ^ (7 * k + 6)) ≤ v → v < 2 ^ (7 * k + 6) →
      (sleb128Bytes v).length ≤ k + 1 := by
  induction k with
  | zero =>
    intro v hlo hhi
    norm_num at hlo hhi
    have p7i : (2 : Int) ^ 7 = 128 := by norm_num
    have hb7lt : (v % 2 ^ 7).toNat < 128 := by rw [p7i]; omega
    have h64 := sign_bit_iff _ hb7lt
    rw [p7i] at h64
    have hfd : v.fdiv (2 ^ 7) = v / 2 ^ 7 := Int.fdiv_eq_ediv _ (by norm_num)
    have hstop : (v.fdiv (2 ^ 7) = 0 ∧ (v % 2 ^ 8).toNat &&& 127 &&& LEB128_SIGN_BIT = 0) ∨
        (v.fdiv (2 ^ 7) = -1 ∧ (v % 2 ^ 8).toNat &&& 127 &&& LEB128_SIGN_BIT ≠ 0) := by
      rw [hfd, sleb_byte_eq, show LEB128_SIGN_BIT = 64 from rfl, p7i]
      rcases Int.lt_or_le v 0 with hneg | hpos
      · right
        constructor
        · omega
        · intro hcon
          rw [h64] at hcon
          omega
      · left
        constructor
        · omega
        · rw [h64]
          omega
    rw [sleb128Bytes, dif_pos hstop]
    simp
  | succ k ih =>
    intro v hlo hhi
    rw [sleb128Bytes]
    split
    · simp
    · simp only [List.length_cons]
      have hfd : v.fdiv (2 ^ 7) = v / 2 ^ 7 := Int.fdiv_eq_ediv _ (by norm_num)
      have p7i : (2 : Int) ^ 7 = 128 := by norm_num
      have hE : (2 : Int) ^ (7 * (k + 1) + 6) = 128 * 2 ^ (7 * k + 6) := by
        rw [show 7 * (k + 1) + 6 = 7 + (7 * k + 6) by ring, pow_add, p7i]
      rw [hE] at hlo hhi
      have hb := ih (v.fdiv (2 ^ 7))
        (by rw [hfd, p7i]; omega)
        (by rw [hfd, p7i]; omega)
      omega

/-- Round trip through the public SLEB128 API: reading back an encoded `i64`
recovers the value and the byte count. -/
theorem sleb128_read_encode (v : Int) (hlo : -(2 ^ 63) ≤ v) (hhi : v < 2 ^ 63) :
    SLEB128.read_from (sleb128Bytes v) = .ok (v, (sleb128Bytes v).length) := by
  have hL10 : (sleb128Bytes v).length ≤ 10 := by
    apply sleb128Bytes_length 9 v
    · norm_num at hlo ⊢
      omega
    · norm_num at hhi ⊢
      omega
  obtain ⟨b, hloop, hblt, hbsign, hpos, hneg⟩ :=
    sleb128_decode_encode v.natAbs v le_rfl 0 0 []
      (by norm_num) ⟨0, rfl⟩ (by norm_num; omega) (by norm_num; omega)
      (by norm_num)
  rw [List.append_nil] at hloop
  unfold SLEB128.read_from
  rw [hloop]
  dsimp only
  simp only [Nat.zero_add, Nat.pow_zero, Nat.mul_one] at *
  rcases Int.le_or_lt 0 v with hv0 | hv0
  · have hsign : b &&& 64 = 0 := hbsign.mpr hv0
    have hvm : v % 2 ^ (7 * (sleb128Bytes v).length) = v :=
      Int.emod_eq_of_lt hv0 (hpos hv0)
    rw [if_neg (by
      rintro ⟨_, hc⟩
      rw [show LEB128_SIGN_BIT = 64 from rfl] at hc
      exact hc hsign)]
    rw [hvm]
    have hvlt : v.toNat < 2 ^ 63 := by
      norm_num at hhi ⊢
      omega
    have hmod : v.toNat % 2 ^ 64 = v.toNat := by
      apply Nat.mod_eq_of_lt
      norm_num at hvlt ⊢
      omega
    rw [hmod, i64ofPattern, if_pos hvlt]
    norm_num
    omega
  · have hsign : ¬(b &&& 64 = 0) := by
      intro hcon
      have := hbsign.mp hcon
      omega
    have hbig : (0 : Int) < 2 ^ (7 * (sleb128Bytes v).length) := by positivity
    have hvm : v % 2 ^ (7 * (sleb128Bytes v).length) =
        v + 2 ^ (7 * (sleb128Bytes v).length) := by
      have h1 : (v + 2 ^ (7 * (sleb128Bytes v).length) * 1) %
          2 ^ (7 * (sleb128Bytes v).length) =
          v % 2 ^ (7 * (sleb128Bytes v).length) :=
        Int.add_mul_emod_self_left v (2 ^ (7 * (sleb128Bytes v).length)) 1
      rw [Int.mul_one] at h1
      rw [← h1]
      apply Int.emod_eq_of_lt
      · have hge := hneg hv0
        omega
      · omega
    rcases Nat.lt_or_ge (7 * (sleb128Bytes v).length) 64 with hL64 | hL64
    · rw [if_pos ⟨hL64, by
        rw [show LEB128_SIGN_BIT = 64 from rfl]
        exact hsign⟩]
      have hKle : (2 : Nat) ^ (7 * (sleb128Bytes v).length) ≤ 2 ^ 63 :=
        Nat.pow_le_pow_right (by norm_num) (by omega)
      have hKcast : ((2 ^ (7 * (sleb128Bytes v).length) : Nat) : Int) =
          2 ^ (7 * (sleb128Bytes v).length) := by
        push_cast
        ring
      have hPlt : (v % 2 ^ (7 * (sleb128Bytes v).length)).toNat <
          2 ^ (7 * (sleb128Bytes v).length) := by
        rw [hvm]
        omega
      have hPmod : (v % 2 ^ (7 * (sleb128Bytes v).length)).toNat % 2 ^ 64 =
          (v % 2 ^ (7 * (sleb128Bytes v).length)).toNat := by
        apply Nat.mod_eq_of_lt
        have h63 : (2 : Nat) ^ 63 < 2 ^ 64 := by norm_num
        omega
      have h64sub : (2 : Nat) ^ (7 * (sleb128Bytes v).length) ≤ 2 ^ 64 := by
        have h63 : (2 : Nat) ^ 63 < 2 ^ 64 := by norm_num
        omega
      rw [hPmod, shift_all_ones (by omega), lor_high hPlt (by omega), i64ofPattern]
      rw [if_neg (by
        have h63 : (2 : Nat) ^ 63 < 2 ^ 64 := by norm_num
        omega)]
      simp only [Except.ok.injEq, Prod.mk.injEq, and_true]
      have hge := hneg hv0
      have hc3 : ((v % 2 ^ (7 * (sleb128Bytes v).length)).toNat : Int) =
          v + 2 ^ (7 * (sleb128Bytes v).length) := by
        rw [hvm]
        omega
      have hcast64 : (((2 : Nat) ^ 64 : Nat) : Int) = 2 ^ 64 := by norm_num
      rw [Nat.cast_add, Nat.cast_sub h64sub, hc3, hcast64, hKcast]
      ring
    · rw [if_neg (by rintro ⟨hc, _⟩; omega)]
      obtain ⟨c, hc⟩ := pow_dvd_pow 2 hL64
      have hcge : 1 ≤ c := by
        by_contra hcon
        push_neg at hcon
        interval_cases c
        · rw [Nat.mul_zero] at hc
          exact absurd hc (by positivity)
      have hci : ((2 : Int)) ^ (7 * (sleb128Bytes v).length) = 2 ^ 64 * (c : Int) := by
        have := congrArg (Nat.cast (R := Int)) hc
        push_cast at this
        linarith
      have hP : (v % 2 ^ (7 * (sleb128Bytes v).length)).toNat % 2 ^ 64 =
          (v + 2 ^ 64).toNat := by
        rw [hvm, hci]
        have h63 : (9223372036854775808 : Int) = 2 ^ 63 := by norm_num
        norm_num at hlo hv0 ⊢
        omega
      rw [hP, i64ofPattern]
      rw [if_neg (by
        norm_num at hlo hv0 ⊢
        omega)]
      norm_num at hlo hv0 ⊢
      omega

end Leb128

namespace Leb128

/-- Round trip through the public ULEB128 API: reading back an encoded `u64`
recovers the value and the byte count. -/
theorem uleb128_read_encode (v : Nat) (hv : v < 2 ^ 64) :
    ULEB128.read_from (uleb128Bytes v) = .ok (v, (uleb128Bytes v).length) := by
  have h := uleb128_decode_encode v 0 0 [] (by norm_num) ⟨0, rfl⟩
    (by norm_num; exact hv) (by norm_num)
  rw [List.append_nil] at h
  unfold ULEB128.read_from
  rw [h]
  norm_num

end Leb128

/-- C10: for every `u64` value `v`, `ULEB128::from(v).write_into` on a buffer
of at least 10 bytes succeeds, returning the number of bytes written, and
`ULEB128::read_from` on the written prefix returns `v` together with that
same byte count; the identical round trip holds for every `i64` value (the
`i64` range `[-2^63, 2^63)` as an integer) with `SLEB128`. -/
theorem leb128_round_trip :
    (∀ v : Nat, v < 2 ^ 64 → ∀ cap : Nat, 10 ≤ cap →
      Leb128.ULEB128.write_into v cap =
        .ok (Leb128.uleb128Bytes v, (Leb128.uleb128Bytes v).length) ∧
      Leb128.ULEB128.read_from (Leb128.uleb128Bytes v) =
        .ok (v, (Leb128.uleb128Bytes v).length)) ∧
    (∀ w : Int, -(2 ^ 63) ≤ w → w < 2 ^ 63 → ∀ cap : Nat, 10 ≤ cap →
      Leb128.SLEB128.write_into w cap =
        .ok (Leb128.sleb128Bytes w, (Leb128.sleb128Bytes w).length) ∧
      Leb128.SLEB128.read_from (Leb128.sleb128Bytes w) =
        .ok (w, (Leb128.sleb128Bytes w).length)) := by
  constructor
  · intro v hv cap hcap
    have hlen : (Leb128.uleb128Bytes v).length ≤ 10 := by
      apply Leb128.uleb128Bytes_length 9 v
      calc v < 2 ^ 64 := hv
        _ ≤ 2 ^ (7 * (9 + 1)) := Nat.pow_le_pow_right (by norm_num) (by norm_num)
    refine ⟨?_, Leb128.uleb128_read_encode v hv⟩
    unfold Leb128.ULEB128.write_into
    rw [if_pos (by omega)]
  · intro w hlo hhi cap hcap
    have hlen : (Leb128.sleb128Bytes w).length ≤ 10 := by
      apply Leb128.sleb128Bytes_length 9 w
      · have : ((2 : Int) ^ 63) ≤ 2 ^ (7 * 9 + 6) := by norm_num
        omega
      · have : ((2 : Int) ^ 63) ≤ 2 ^ (7 * 9 + 6) := by norm_num
        omega
    refine ⟨?_, Leb128.sleb128_read_encode w hlo hhi⟩
    unfold Leb128.SLEB128.write_into
    rw [if_pos (by omega)]

/-- Witness for C10 at concrete inputs: the crate's own doc examples, the
`u64` 624485 and the `i64` -123456, both with a 10-byte buffer. -/
theorem leb128_round_trip_witness :
    Leb128.ULEB128.write_into 624485 10 =
      .ok (Leb128.uleb128Bytes 624485, (Leb128.uleb128Bytes 624485).length) ∧
    Leb128.SLEB128.read_from (Leb128.sleb128Bytes (-123456)) =
      .ok (-123456, (Leb128.sleb128Bytes (-123456)).length) :=
  ⟨(leb128_round_trip.1 624485 (by norm_num) 10 (by norm_num)).1,
   (leb128_round_trip.2 (-123456) (by norm_num) (by norm_num) 10 (by norm_num)).2⟩
